import Mathlib

/-!
Shallow embedding of the Reversi variant implemented in `test.py`, `test2.py`
and `test3.py`: an 8×8 board of cells `"."`/`"X"`/`"O"`, flip computation over
the 8 compass directions, the ≥3-flips "return one piece" rule (automatic
random choice in `test.py`/`test3.py`, manual selection in `test2.py`), turn
switching with forced-pass handling, and the per-turn countdown clock with a
budget of 3 sixty-second extensions per side.

Python's mutable `self.board` (a list of lists indexed by ints after an
`inside` bounds check) is embedded as a total function `Int → Int → Cell`;
only the cells with both coordinates in `[0, 8)` are ever meaningful, and the
engine is proved to read no others.  `random.choice` is embedded as an
injected index argument, following the injectable-randomness design note.
-/

namespace Reversi

/-- Cell contents: `"."`, `"X"`, `"O"` in the Python source.  The source also
uses the strings `"X"`/`"O"` as player identifiers, so the same type serves
as the player type. -/
inductive Cell where
  | empty : Cell
  | X : Cell
  | O : Cell
deriving DecidableEq, Repr

/-- Embeds `ReversiGame.opponent`: `return "O" if player == "X" else "X"`. -/
def opponent (player : Cell) : Cell :=
  if player = Cell.X then Cell.O else Cell.X

/-- Embeds `BOARD_SIZE = 8`. -/
def BOARD_SIZE : Int := 8

/-- Embeds `ReversiGame.inside`: `0 <= r < BOARD_SIZE and 0 <= c < BOARD_SIZE`. -/
def inside (r c : Int) : Bool :=
  decide (0 ≤ r ∧ r < BOARD_SIZE ∧ 0 ≤ c ∧ c < BOARD_SIZE)

/-- The board, `self.board`, as a total function; cells outside the 8×8 grid
are irrelevant (the engine never reads them, see the access-guard theorem). -/
abbrev Board := Int → Int → Cell

/-- A single-cell write `self.board[r][c] = v`. -/
def setCell (b : Board) (r c : Int) (v : Cell) : Board :=
  fun r' c' => if r' = r ∧ c' = c then v else b r' c'

/-- The board produced by `__init__` + `init_board`: all `"."` except
`board[3][3] = board[4][4] = "X"` and `board[3][4] = board[4][3] = "O"`. -/
def init_board : Board :=
  fun r c =>
    if (r = 3 ∧ c = 3) ∨ (r = 4 ∧ c = 4) then Cell.X
    else if (r = 3 ∧ c = 4) ∨ (r = 4 ∧ c = 3) then Cell.O
    else Cell.empty

/-- The direction list of `get_flips`, in source order. -/
def directions : List (Int × Int) :=
  [(-1, 0), (1, 0), (0, -1), (0, 1), (-1, -1), (-1, 1), (1, -1), (1, 1)]

/-- The `while self.inside(x, y) and self.board[x][y] == opp:` loop of
`get_flips`: starting at `(x, y)` and stepping by `(dx, dy)`, collect the
contiguous run of cells holding `opp`, returning the collected coordinates in
order together with the final `(x, y)` reached when the loop exits.  The loop
is embedded with explicit fuel; fuel 8 is exact because from any in-bounds
start the position leaves the 8×8 grid after at most 8 unit steps
(fuel-sufficiency is proved below). -/
def collectRun (b : Board) (opp : Cell) (dx dy : Int) :
    Nat → Int → Int → List (Int × Int) × (Int × Int)
  | 0, x, y => ([], (x, y))
  | Nat.succ fuel, x, y =>
    if inside x y && (b x y == opp) then
      let rest := collectRun b opp dx dy fuel (x + dx) (y + dy)
      ((x, y) :: rest.1, rest.2)
    else ([], (x, y))

/-- One direction's contribution in `get_flips`, with the loop fuel exposed:
the `continue` guard, the collection loop, and the final
`if self.inside(x, y) and self.board[x][y] == player and flips:` test. -/
def lineFlipsF (fuel : Nat) (b : Board) (player : Cell) (r c dx dy : Int) :
    List (Int × Int) :=
  let opp := opponent player
  let x := r + dx
  let y := c + dy
  if !(inside x y) || !(b x y == opp) then []
  else
    let res := collectRun b opp dx dy fuel x y
    if inside res.2.1 res.2.2 && (b res.2.1 res.2.2 == player) &&
        !res.1.isEmpty then
      res.1
    else []

/-- One direction's contribution in `get_flips`, at the exact fuel 8. -/
def lineFlips (b : Board) (player : Cell) (r c dx dy : Int) :
    List (Int × Int) :=
  lineFlipsF 8 b player r c dx dy

/-- Embeds `ReversiGame.get_flips`: the `for dr, dc in directions` loop extends
`flips_total` by each direction's contribution in order. -/
def get_flips (b : Board) (player : Cell) (r c : Int) : List (Int × Int) :=
  directions.foldl (fun acc d => acc ++ lineFlips b player r c d.1 d.2) []

/-- The row-major list of all coordinates of the 8×8 grid, the iteration
order of `for r in range(BOARD_SIZE): for c in range(BOARD_SIZE):`. -/
def allCoords : List (Int × Int) :=
  (List.range 8).flatMap fun (r : Nat) =>
    (List.range 8).map fun (c : Nat) => ((r : Int), (c : Int))

/-- Embeds `ReversiGame.get_valid_moves`: the empty cells whose flip list is
non-empty, in row-major scan order. -/
def get_valid_moves (b : Board) (player : Cell) : List (Int × Int) :=
  allCoords.filter fun q =>
    (b q.1 q.2 == Cell.empty) && !(get_flips b player q.1 q.2).isEmpty

/-- The placement-plus-flips part of `make_move`: write `player` into `(r, c)`
and into every coordinate of `flips`. -/
def applyBoard (b : Board) (player : Cell) (r c : Int)
    (flips : List (Int × Int)) : Board :=
  flips.foldl (fun bb q => setCell bb q.1 q.2 player) (setCell b r c player)

/-- Number of cells of the grid holding `v`; `sum(row.count(v) for row in
self.board)` in `count_pieces`, flattened to a row-major count. -/
def countCell (b : Board) (v : Cell) : Nat :=
  (allCoords.filter fun q => b q.1 q.2 == v).length

/-- Embeds `ReversiGame.count_pieces`: `(x_cnt, o_cnt)`. -/
def count_pieces (b : Board) : Nat × Nat :=
  (countCell b Cell.X, countCell b Cell.O)

/-- Embeds `ReversiGame.game_over`: board full, or a side has no pieces, or neither
side has a valid move. -/
def game_over (b : Board) : Bool :=
  let full := allCoords.all fun q => !(b q.1 q.2 == Cell.empty)
  if full then true
  else if countCell b Cell.X = 0 ∨ countCell b Cell.O = 0 then true
  else if (get_valid_moves b Cell.X).isEmpty &&
      (get_valid_moves b Cell.O).isEmpty then true
  else false

/-- Embeds `ReversiGame.make_move` of `test2.py`/`test3.py` (placement + flips,
no reversion): returns `none` when the flip list is empty (illegal, board
untouched), otherwise the updated board and the flip list. -/
def make_move (b : Board) (player : Cell) (r c : Int) :
    Option (Board × List (Int × Int)) :=
  let flips := get_flips b player r c
  if flips.isEmpty then none
  else some (applyBoard b player r c flips, flips)

/-- Embeds `ReversiGame.make_move` of `test.py`: after placement + flips, if
`len(flips) >= 3` the return rule fires — `random.choice(flips)` is reverted
to the opponent's colour.  The random choice is embedded as the injected
index `k`, read modulo the list length. -/
def make_move_auto (b : Board) (player : Cell) (r c : Int) (k : Nat) :
    Option (Board × List (Int × Int) × Option (Int × Int)) :=
  let flips := get_flips b player r c
  if h : flips.isEmpty then none
  else
    let b1 := applyBoard b player r c flips
    if 3 ≤ flips.length then
      let pos : Nat := k % flips.length
      let q := flips.get ⟨pos, Nat.mod_lt k (List.length_pos.mpr
        (fun hnil => h (by simp [hnil])))⟩
      some (setCell b1 q.1 q.2 (opponent player), flips, some q)
    else some (b1, flips, none)

/-- Outcome of `ReversiGUI.switch_player`: either some side is to move next
(`passed` records whether a `PASS` was logged on the way), or the game was
finished by `finish_game` with a `PASS` logged first. -/
inductive SwitchResult where
  | toMove (next : Cell) (passed : Bool) : SwitchResult
  | finished : SwitchResult
deriving DecidableEq, Repr

/-- Embeds `ReversiGUI.switch_player`: flip `current_player`; if the new side has a
valid move it starts its turn; otherwise log `PASS`, flip back, and either
start the original side's turn or, if it too has no valid move, finish. -/
def switch_player (b : Board) (player : Cell) : SwitchResult :=
  let next := opponent player
  if !(get_valid_moves b next).isEmpty then SwitchResult.toMove next false
  else if !(get_valid_moves b player).isEmpty then
    SwitchResult.toMove player true
  else SwitchResult.finished

/-- The manual-return GUI state of `test2.py`: the game's board and
`current_player`, the GUI's `pending_return` flip list, and whether
`finish_game` has run (after which clicks are unbound). -/
structure GuiState where
  board : Board
  current_player : Cell
  pending_return : Option (List (Int × Int))
  finished : Bool

/-- The end-of-move sequence shared by the click handlers of `test2.py`:
`if self.game.game_over(): self.finish_game() else: self.switch_player()`. -/
def finishOrSwitch (s : GuiState) : GuiState :=
  if game_over s.board then { s with finished := true }
  else
    match switch_player s.board s.current_player with
    | SwitchResult.toMove next _ => { s with current_player := next }
    | SwitchResult.finished => { s with finished := true }

/-- Embeds `ReversiGUI.handle_click` of `test2.py` (board-coordinate part): ignore
clicks while a return is pending or after the game finished; reject
off-board or invalid coordinates; otherwise apply the move, and either store
the flip list as `pending_return` (when `len(flips) >= 3`, reverting
nothing yet) or proceed to the end-of-move sequence. -/
def handle_click (s : GuiState) (row col : Int) : GuiState :=
  if s.finished then s
  else if s.pending_return ≠ none then s
  else if !(inside row col) then s
  else if (row, col) ∉ get_valid_moves s.board s.current_player then s
  else
    let flips := get_flips s.board s.current_player row col
    let b1 := applyBoard s.board s.current_player row col flips
    if 3 ≤ flips.length then
      { s with board := b1, pending_return := some flips }
    else finishOrSwitch { s with board := b1 }

/-- Embeds `ReversiGUI.handle_return_click` of `test2.py`: only bound while a return
is pending; a click outside the stored flip list is ignored; a click on a
stored flip coordinate reverts that single cell to the opponent's colour,
clears the pending state and proceeds to the end-of-move sequence. -/
def handle_return_click (s : GuiState) (row col : Int) : GuiState :=
  match s.pending_return with
  | none => s
  | some pend =>
    if (row, col) ∉ pend then s
    else
      let b1 := setCell s.board row col (opponent s.current_player)
      finishOrSwitch { s with board := b1, pending_return := none }

/-- The full session state of `test.py`: game fields (`board`,
`current_player`, `extensions`) plus the GUI's timer fields (`time_left`)
and finished flag.  Budgets are integers, as in Python, so that their
non-negativity is a real invariant rather than a typing artefact. -/
structure FullState where
  board : Board
  current_player : Cell
  extX : Int
  extO : Int
  time_left : Int
  finished : Bool

/-- Embeds `self.game.extensions[player]`. -/
def FullState.ext (s : FullState) (player : Cell) : Int :=
  if player = Cell.X then s.extX else s.extO

/-- Embeds `self.game.extensions[player] -= 1`. -/
def FullState.decExt (s : FullState) (player : Cell) : FullState :=
  if player = Cell.X then { s with extX := s.extX - 1 }
  else { s with extO := s.extO - 1 }

/-- The session right after `ReversiGame.__init__` and `ReversiGUI.__init__`:
initial board, `"X"` to move, three extensions per side, 60 seconds. -/
def initFull (b : Board) : FullState :=
  { board := b, current_player := Cell.X, extX := 3, extO := 3,
    time_left := 60, finished := false }

/-- Embeds `ReversiGUI.use_extension`: a no-op when the current side's budget is 0
or `time_left >= 120`; otherwise consume one extension and add 60 seconds,
clamped to 120. -/
def use_extension (s : FullState) : FullState :=
  if s.ext s.current_player = 0 ∨ 120 ≤ s.time_left then s
  else
    let s1 := s.decExt s.current_player
    let t := s1.time_left + 60
    { s1 with time_left := if 120 < t then 120 else t }

/-- Embeds `ReversiGUI.handle_timeout`, fused with the `start_turn` clock reset that
follows `switch_player` on every non-final path: with budget left, consume
one extension automatically and reset the clock to 60; with the budget
exhausted, log `PASS` (the returned flag) and delegate to `switch_player`.
-/
def handle_timeout (s : FullState) : FullState × Bool :=
  if 0 < s.ext s.current_player then
    ({ s.decExt s.current_player with time_left := 60 }, false)
  else
    match switch_player s.board s.current_player with
    | SwitchResult.toMove next _ =>
      ({ s with current_player := next, time_left := 60 }, true)
    | SwitchResult.finished => ({ s with finished := true }, true)

/-- Embeds `ReversiGUI.tick`: at 0, `handle_timeout`; otherwise count down one
second. -/
def tick (s : FullState) : FullState :=
  if s.time_left = 0 then (handle_timeout s).1
  else { s with time_left := s.time_left - 1 }

/-- The clock-affecting operations of the session: a manual extension
request, one timer tick (which at 0 performs the timeout handling), and the
`start_turn` reset at a turn boundary (which also re-reads
`current_player`, modelled by the side the boundary hands the turn to). -/
inductive ClockOp where
  | extend : ClockOp
  | tick : ClockOp
  | reset (next : Cell) : ClockOp

/-- One clock operation applied to the session state. -/
def clockStep (s : FullState) : ClockOp → FullState
  | ClockOp.extend => use_extension s
  | ClockOp.tick => tick s
  | ClockOp.reset next => { s with current_player := next, time_left := 60 }

/-- Embeds `ReversiGUI.ai_move` of `test3.py`, applied to an already-chosen move
`(r, c)` (the `random.choice(moves)` pick) with the return-rule choice
injected as index `k`: apply the move; when `len(flips) >= 3` revert the
chosen flip to `"X"` (the AI plays `"O"`). -/
def ai_move_apply (b : Board) (r c : Int) (k : Nat) : Option Board :=
  match make_move b Cell.O r c with
  | none => none
  | some (b1, flips) =>
    if 3 ≤ flips.length then
      some (setCell b1 (flips.getD (k % flips.length) (0, 0)).1
        (flips.getD (k % flips.length) (0, 0)).2 Cell.X)
    else some b1

/-- Embeds `ReversiGame.make_move` of `test.py` as a step on the whole session
state: the method mutates only `self.board`, leaving `current_player`, the
extension budgets and the timer alone. -/
def make_move_state (s : FullState) (r c : Int) (k : Nat) :
    FullState × Option (List (Int × Int) × Option (Int × Int)) :=
  match make_move_auto s.board s.current_player r c k with
  | none => (s, none)
  | some (b1, flips, ret) => ({ s with board := b1 }, some (flips, ret))

/-- The flip computation with the loop fuel exposed, to state that the
embedded fuel of 8 is exact (the source loop needs no fuel: it always exits
the grid). -/
def get_flipsF (fuel : Nat) (b : Board) (player : Cell) (r c : Int) :
    List (Int × Int) :=
  directions.foldl (fun acc d => acc ++ lineFlipsF fuel b player r c d.1 d.2) []

/-- Modelled from the spec's wording of `computeFlips` ("walk outward from
`(r, c)`"): the first 8 positions on the ray from `(r, c)` in direction
`(dx, dy)`, the `k`-th being `(r + (k+1)·dx, c + (k+1)·dy)`.  Eight positions
always cover every in-bounds cell of the ray. -/
def rayPositions (r c dx dy : Int) : List (Int × Int) :=
  (List.range 8).map fun (k : Nat) =>
    (r + ((k : Int) + 1) * dx, c + ((k : Int) + 1) * dy)

/-- Modelled from the spec's wording: the contiguous run of opponent cells
collected walking outward from `(r, c)`. -/
def specRun (b : Board) (player : Cell) (r c dx dy : Int) :
    List (Int × Int) :=
  (rayPositions r c dx dy).takeWhile fun q =>
    inside q.1 q.2 && (b q.1 q.2 == opponent player)

/-- Modelled from the spec's wording: a direction's contribution is its run
when the run is non-empty and terminates inside the board on a cell owned by
`player`; the direction contributes nothing when it runs off-board, hits an
empty cell first, or hits `player`'s own piece with no opponent cells
collected. -/
def specLine (b : Board) (player : Cell) (r c dx dy : Int) :
    List (Int × Int) :=
  let run := specRun b player r c dx dy
  let t : Int × Int :=
    (r + ((run.length : Int) + 1) * dx, c + ((run.length : Int) + 1) * dy)
  if run ≠ [] ∧ inside t.1 t.2 = true ∧ b t.1 t.2 = player then run else []

/-- Modelled from the spec's wording of `computeFlips`: the concatenation,
over the 8 compass directions evaluated independently, of each direction's
contribution. -/
def flipsSpec (b : Board) (player : Cell) (r c : Int) : List (Int × Int) :=
  (directions.map fun d => specLine b player r c d.1 d.2).flatten

/-- The clock/budget invariant of the session: both budgets stay within
`[0, 3]` and the countdown stays within `[0, 120]`. -/
def ClockInv (s : FullState) : Prop :=
  0 ≤ s.extX ∧ s.extX ≤ 3 ∧ 0 ≤ s.extO ∧ s.extO ≤ 3 ∧
    0 ≤ s.time_left ∧ s.time_left ≤ 120

/-- A concrete board showing that `get_flips` performs no emptiness check on
its target: `"X"` at (0,0) and (0,2), `"O"` at (0,1). -/
def bC7 : Board := fun r c =>
  if r = 0 ∧ c = 0 then Cell.X
  else if r = 0 ∧ c = 1 then Cell.O
  else if r = 0 ∧ c = 2 then Cell.X
  else Cell.empty

/-- A concrete board on which `"X"` playing (0,0) flips exactly the three
`"O"` cells (0,1), (0,2), (0,3), triggering the return rule. -/
def bW : Board := fun r c =>
  if r = 0 ∧ (c = 1 ∨ c = 2 ∨ c = 3) then Cell.O
  else if r = 0 ∧ c = 4 then Cell.X
  else Cell.empty

/-- A concrete board on which `"O"` has no valid move while `"X"` does:
`"X"` at (0,0), `"O"` at (0,1). -/
def bP : Board := fun r c =>
  if r = 0 ∧ c = 0 then Cell.X
  else if r = 0 ∧ c = 1 then Cell.O
  else Cell.empty

/-- Number of steps the walk of `get_flips` can take from `(x, y)` in
direction `(dx, dy)` before leaving the grid for good: measured on the
coordinate that moves.  Used only to prove that fuel 8 is sufficient. -/
def exitSteps (x y dx dy : Int) : Nat :=
  if dx = 1 then (8 - x).toNat
  else if dx = -1 then (x + 1).toNat
  else if dy = 1 then (8 - y).toNat
  else (y + 1).toNat

/-- Shape of a usable direction: each component is a unit step or zero and
not both are zero.  All 8 entries of `directions` satisfy it. -/
def DirOk (dx dy : Int) : Prop :=
  (dx = 1 ∨ dx = -1 ∨ dx = 0) ∧ (dy = 1 ∨ dy = -1 ∨ dy = 0) ∧
    ¬(dx = 0 ∧ dy = 0)

/-- A concrete board with a lone `"X"` piece: neither side has a valid
move, so a pass immediately ends the game. -/
def bX : Board := fun r c =>
  if r = 0 ∧ c = 0 then Cell.X else Cell.empty

/-- A concrete session whose current side has an exhausted extension
budget and an expired clock. -/
def s0W : FullState :=
  { board := bP, current_player := Cell.X, extX := 0, extO := 0,
    time_left := 0, finished := false }

/-- A concrete session whose current side still has extensions left and an
expired clock. -/
def s1W : FullState :=
  { board := bP, current_player := Cell.X, extX := 2, extO := 3,
    time_left := 0, finished := false }

/-- A concrete manual-mode GUI state with a pending return among the three
cells flipped by `"X"` playing (0,0) on `bW`. -/
def gW : GuiState :=
  { board := applyBoard bW Cell.X 0 0 [(0, 1), (0, 2), (0, 3)],
    current_player := Cell.X,
    pending_return := some [(0, 1), (0, 2), (0, 3)],
    finished := false }

end Reversi

namespace Reversi

/-! ### Basic facts -/

theorem opponent_ne (p : Cell) : opponent p ≠ p := by
  cases p <;> decide

theorem inside_iff (r c : Int) :
    inside r c = true ↔ (0 ≤ r ∧ r < 8 ∧ 0 ≤ c ∧ c < 8) := by
  simp [inside, BOARD_SIZE]

theorem mem_allCoords {q : Int × Int} :
    q ∈ allCoords ↔ inside q.1 q.2 = true := by
  constructor
  · intro h
    rcases List.mem_flatMap.mp h with ⟨r, hr, hq⟩
    rcases List.mem_map.mp hq with ⟨c, hc, rfl⟩
    rw [List.mem_range] at hr hc
    have hb : (0 : Int) ≤ (r : Int) ∧ (r : Int) < 8 ∧
        (0 : Int) ≤ (c : Int) ∧ (c : Int) < 8 := by omega
    simpa [inside_iff] using hb
  · intro h
    rw [inside_iff] at h
    apply List.mem_flatMap.mpr
    refine ⟨q.1.toNat, List.mem_range.mpr (by omega), ?_⟩
    apply List.mem_map.mpr
    refine ⟨q.2.toNat, List.mem_range.mpr (by omega), ?_⟩
    obtain ⟨qr, qc⟩ := q
    simp only at h ⊢
    rw [Prod.mk.injEq]
    constructor <;> omega

theorem allCoords_nodup : allCoords.Nodup := by decide

theorem directions_ok : ∀ d ∈ directions, DirOk d.1 d.2 := by
  intro d hd
  simp only [directions, List.mem_cons, List.not_mem_nil, or_false] at hd
  rcases hd with rfl | rfl | rfl | rfl | rfl | rfl | rfl | rfl <;>
    exact ⟨by norm_num, by norm_num, by norm_num⟩

/-! ### Structure of the collection loop -/

theorem collectRun_zero (b : Board) (opp : Cell) (dx dy x y : Int) :
    collectRun b opp dx dy 0 x y = ([], (x, y)) := rfl

theorem collectRun_succ (b : Board) (opp : Cell) (dx dy : Int) (fuel : Nat)
    (x y : Int) :
    collectRun b opp dx dy (fuel + 1) x y =
      if inside x y && (b x y == opp) then
        ((x, y) :: (collectRun b opp dx dy fuel (x + dx) (y + dy)).1,
          (collectRun b opp dx dy fuel (x + dx) (y + dy)).2)
      else ([], (x, y)) := rfl

theorem collectRun_mem (b : Board) (opp : Cell) (dx dy : Int) :
    ∀ (fuel : Nat) (x y : Int) (q : Int × Int),
      q ∈ (collectRun b opp dx dy fuel x y).1 →
      inside q.1 q.2 = true ∧ b q.1 q.2 = opp := by
  intro fuel
  induction fuel with
  | zero => intro x y q h; simp [collectRun_zero] at h
  | succ n ih =>
    intro x y q h
    rw [collectRun_succ] at h
    by_cases hc : (inside x y && (b x y == opp)) = true
    · rw [if_pos hc] at h
      simp only [List.mem_cons] at h
      rcases h with rfl | h
      · simp only [Bool.and_eq_true, beq_iff_eq] at hc
        exact ⟨hc.1, hc.2⟩
      · exact ih _ _ _ h
    · rw [if_neg hc] at h
      simp at h

theorem collectRun_fst_ray (b : Board) (opp : Cell) (dx dy : Int) :
    ∀ (fuel : Nat) (x y : Int),
      (collectRun b opp dx dy fuel x y).1 =
        (List.range (collectRun b opp dx dy fuel x y).1.length).map
          (fun (k : Nat) => (x + (k : Int) * dx, y + (k : Int) * dy)) := by
  intro fuel
  induction fuel with
  | zero => intro x y; simp [collectRun_zero]
  | succ n ih =>
    intro x y
    rw [collectRun_succ]
    by_cases hc : (inside x y && (b x y == opp)) = true
    · rw [if_pos hc]
      show (x, y) :: (collectRun b opp dx dy n (x + dx) (y + dy)).1 = _
      rw [List.length_cons, List.range_succ_eq_map, List.map_cons,
        List.map_map]
      congr 1
      · simp
      · conv_lhs => rw [ih (x + dx) (y + dy)]
        apply List.map_congr_left
        intro k _
        simp only [Function.comp_apply, Nat.succ_eq_add_one, Prod.mk.injEq]
        constructor <;> push_cast <;> ring
    · rw [if_neg hc]
      simp

theorem collectRun_snd (b : Board) (opp : Cell) (dx dy : Int) :
    ∀ (fuel : Nat) (x y : Int),
      (collectRun b opp dx dy fuel x y).2 =
        (x + ((collectRun b opp dx dy fuel x y).1.length : Int) * dx,
         y + ((collectRun b opp dx dy fuel x y).1.length : Int) * dy) := by
  intro fuel
  induction fuel with
  | zero => intro x y; simp [collectRun_zero]
  | succ n ih =>
    intro x y
    rw [collectRun_succ]
    by_cases hc : (inside x y && (b x y == opp)) = true
    · rw [if_pos hc]
      show (collectRun b opp dx dy n (x + dx) (y + dy)).2 = _
      rw [ih (x + dx) (y + dy), List.length_cons]
      simp only [Prod.mk.injEq]
      constructor <;> push_cast <;> ring
    · rw [if_neg hc]
      simp

theorem collectRun_fst_takeWhile (b : Board) (opp : Cell) (dx dy : Int) :
    ∀ (fuel : Nat) (x y : Int),
      (collectRun b opp dx dy fuel x y).1 =
        ((List.range fuel).map
          (fun (k : Nat) => (x + (k : Int) * dx, y + (k : Int) * dy))).takeWhile
            (fun q => inside q.1 q.2 && (b q.1 q.2 == opp)) := by
  intro fuel
  induction fuel with
  | zero => intro x y; simp [collectRun_zero]
  | succ n ih =>
    intro x y
    rw [collectRun_succ, List.range_succ_eq_map, List.map_cons, List.map_map]
    have hhead : (x + ((0 : Nat) : Int) * dx, y + ((0 : Nat) : Int) * dy)
        = (x, y) := by simp
    rw [hhead, List.takeWhile_cons]
    have hmap :
        (List.range n).map
            ((fun (k : Nat) => (x + (k : Int) * dx, y + (k : Int) * dy)) ∘
              Nat.succ) =
          (List.range n).map
            (fun (k : Nat) =>
              ((x + dx) + (k : Int) * dx, (y + dy) + (k : Int) * dy)) := by
      apply List.map_congr_left
      intro k _
      simp only [Function.comp_apply, Nat.succ_eq_add_one, Prod.mk.injEq]
      constructor <;> push_cast <;> ring
    by_cases hc : (inside x y && (b x y == opp)) = true
    · rw [if_pos hc, if_pos hc, hmap, ih (x + dx) (y + dy)]
    · rw [if_neg hc, if_neg hc]

theorem collectRun_congr (b bb : Board) (opp : Cell) (dx dy : Int)
    (h : ∀ x y, inside x y = true → b x y = bb x y) :
    ∀ (fuel : Nat) (x y : Int),
      collectRun b opp dx dy fuel x y = collectRun bb opp dx dy fuel x y := by
  intro fuel
  induction fuel with
  | zero => intro x y; rfl
  | succ n ih =>
    intro x y
    rw [collectRun_succ, collectRun_succ]
    by_cases hx : inside x y = true
    · rw [h x y hx, ih (x + dx) (y + dy)]
    · rw [if_neg (by simp [hx]), if_neg (by simp [hx])]

/-! ### Fuel sufficiency: the embedded fuel of 8 is exact -/

theorem exitSteps_pos {dx dy : Int} (hD : DirOk dx dy) {x y : Int}
    (h : inside x y = true) : 1 ≤ exitSteps x y dx dy := by
  rw [inside_iff] at h
  obtain ⟨h1, h2, h3⟩ := hD
  rcases h1 with rfl | rfl | rfl <;> rcases h2 with rfl | rfl | rfl <;>
    simp_all [exitSteps] <;> omega

theorem exitSteps_le_eight {dx dy : Int} (hD : DirOk dx dy) {x y : Int}
    (h : inside x y = true) : exitSteps x y dx dy ≤ 8 := by
  rw [inside_iff] at h
  obtain ⟨h1, h2, h3⟩ := hD
  rcases h1 with rfl | rfl | rfl <;> rcases h2 with rfl | rfl | rfl <;>
    simp_all [exitSteps] <;> omega

theorem exitSteps_step {dx dy : Int} (hD : DirOk dx dy) {x y : Int}
    (h : inside x y = true) :
    exitSteps (x + dx) (y + dy) dx dy + 1 = exitSteps x y dx dy := by
  rw [inside_iff] at h
  obtain ⟨h1, h2, h3⟩ := hD
  rcases h1 with rfl | rfl | rfl <;> rcases h2 with rfl | rfl | rfl <;>
    simp_all [exitSteps] <;> omega

theorem collectRun_add_one {b : Board} {opp : Cell} {dx dy : Int}
    (hD : DirOk dx dy) :
    ∀ (f : Nat) (x y : Int), exitSteps x y dx dy ≤ f →
      collectRun b opp dx dy (f + 1) x y = collectRun b opp dx dy f x y := by
  intro f
  induction f with
  | zero =>
    intro x y hf
    by_cases hx : inside x y = true
    · exact absurd hf (by have := exitSteps_pos hD hx; omega)
    · rw [collectRun_succ, if_neg (by simp [hx])]
      rfl
  | succ n ih =>
    intro x y hf
    by_cases hc : (inside x y && (b x y == opp)) = true
    · have hx : inside x y = true := by
        simp only [Bool.and_eq_true] at hc
        exact hc.1
      have hstep := exitSteps_step hD hx
      have hrec := ih (x + dx) (y + dy) (by omega)
      conv_lhs => rw [collectRun_succ, if_pos hc]
      conv_rhs => rw [collectRun_succ, if_pos hc]
      rw [hrec]
    · conv_lhs => rw [collectRun_succ, if_neg hc]
      conv_rhs => rw [collectRun_succ, if_neg hc]

theorem collectRun_eight_add {b : Board} {opp : Cell} {dx dy : Int}
    (hD : DirOk dx dy) :
    ∀ (m : Nat) (x y : Int), inside x y = true →
      collectRun b opp dx dy (8 + m) x y = collectRun b opp dx dy 8 x y := by
  intro m
  induction m with
  | zero => intro x y _; rfl
  | succ k ih =>
    intro x y hx
    have h1 : 8 + (k + 1) = (8 + k) + 1 := by omega
    rw [h1, collectRun_add_one hD (8 + k) x y
      (by have h2 := exitSteps_le_eight hD hx; omega)]
    exact ih x y hx

theorem lineFlipsF_eq_lineFlips {b : Board} {p : Cell} {r c dx dy : Int}
    (hD : DirOk dx dy) (fuel : Nat) (hf : 8 ≤ fuel) :
    lineFlipsF fuel b p r c dx dy = lineFlips b p r c dx dy := by
  simp only [lineFlips, lineFlipsF]
  by_cases hg : (!(inside (r + dx) (c + dy)) ||
      !(b (r + dx) (c + dy) == opponent p)) = true
  · rw [if_pos hg, if_pos hg]
  · rw [if_neg hg, if_neg hg]
    have hx : inside (r + dx) (c + dy) = true := by
      by_contra hxx
      rw [Bool.not_eq_true] at hxx
      exact hg (by rw [hxx]; simp)
    obtain ⟨m, rfl⟩ : ∃ m, fuel = 8 + m := ⟨fuel - 8, by omega⟩
    rw [collectRun_eight_add hD m _ _ hx]

/-! ### The flip list as a concatenation over directions -/

theorem foldl_append_eq_flatten {α β : Type _} (f : α → List β) (l : List α) :
    ∀ init : List β,
      l.foldl (fun acc d => acc ++ f d) init = init ++ (l.map f).flatten := by
  induction l with
  | nil => intro init; simp
  | cons a l ih => intro init; simp [ih]

theorem get_flips_eq_flatten (b : Board) (p : Cell) (r c : Int) :
    get_flips b p r c =
      (directions.map fun d => lineFlips b p r c d.1 d.2).flatten := by
  unfold get_flips
  rw [foldl_append_eq_flatten]
  simp

theorem get_flipsF_eq_get_flips (fuel : Nat) (hf : 8 ≤ fuel) (b : Board)
    (p : Cell) (r c : Int) :
    get_flipsF fuel b p r c = get_flips b p r c := by
  unfold get_flipsF get_flips
  rw [foldl_append_eq_flatten, foldl_append_eq_flatten]
  have hmap : directions.map (fun d => lineFlipsF fuel b p r c d.1 d.2) =
      directions.map (fun d => lineFlips b p r c d.1 d.2) :=
    List.map_congr_left
      (fun d hd => lineFlipsF_eq_lineFlips (directions_ok d hd) fuel hf)
  rw [hmap]

theorem mem_get_flips {b : Board} {p : Cell} {r c : Int} {q : Int × Int} :
    q ∈ get_flips b p r c ↔
      ∃ d ∈ directions, q ∈ lineFlips b p r c d.1 d.2 := by
  rw [get_flips_eq_flatten, List.mem_flatten]
  constructor
  · rintro ⟨l, hl, hq⟩
    rcases List.mem_map.mp hl with ⟨d, hd, rfl⟩
    exact ⟨d, hd, hq⟩
  · rintro ⟨d, hd, hq⟩
    exact ⟨_, List.mem_map.mpr ⟨d, hd, rfl⟩, hq⟩

theorem lineFlips_subset (b : Board) (p : Cell) (r c dx dy : Int) :
    ∀ q ∈ lineFlips b p r c dx dy,
      q ∈ (collectRun b (opponent p) dx dy 8 (r + dx) (c + dy)).1 := by
  intro q hq
  simp only [lineFlips, lineFlipsF] at hq
  split at hq
  · simp at hq
  · split at hq
    · exact hq
    · simp at hq

theorem mem_get_flips_inside {b : Board} {p : Cell} {r c : Int}
    {q : Int × Int} (h : q ∈ get_flips b p r c) :
    inside q.1 q.2 = true ∧ b q.1 q.2 = opponent p := by
  rcases mem_get_flips.mp h with ⟨d, hd, hq⟩
  exact collectRun_mem b (opponent p) d.1 d.2 8 _ _ q
    (lineFlips_subset b p r c d.1 d.2 q hq)

theorem lineFlips_ray {b : Board} {p : Cell} {r c dx dy : Int}
    {q : Int × Int} (hq : q ∈ lineFlips b p r c dx dy) :
    ∃ k : Int, 1 ≤ k ∧ q.1 = r + k * dx ∧ q.2 = c + k * dy := by
  have hrun := lineFlips_subset b p r c dx dy q hq
  rw [collectRun_fst_ray] at hrun
  rcases List.mem_map.mp hrun with ⟨j, hj, rfl⟩
  refine ⟨(j : Int) + 1, by omega, ?_, ?_⟩
  · show r + dx + (j : Int) * dx = r + ((j : Int) + 1) * dx
    ring
  · show c + dy + (j : Int) * dy = c + ((j : Int) + 1) * dy
    ring

theorem mem_get_flips_ne {b : Board} {p : Cell} {r c : Int} {q : Int × Int}
    (h : q ∈ get_flips b p r c) : q ≠ (r, c) := by
  rcases mem_get_flips.mp h with ⟨d, hd, hq⟩
  obtain ⟨hd1, hd2, hd3⟩ := directions_ok d hd
  rcases lineFlips_ray hq with ⟨k, hk, h1, h2⟩
  intro heq
  rw [heq] at h1 h2
  simp only at h1 h2
  have e1 : k * d.1 = 0 := by omega
  have e2 : k * d.2 = 0 := by omega
  have hk0 : k ≠ 0 := by omega
  rcases mul_eq_zero.mp e1 with h | hdx1
  · exact hk0 h
  · rcases mul_eq_zero.mp e2 with h | hdy1
    · exact hk0 h
    · exact hd3 ⟨hdx1, hdy1⟩

theorem lineFlips_nodup {b : Board} {p : Cell} {r c dx dy : Int}
    (hD : DirOk dx dy) : (lineFlips b p r c dx dy).Nodup := by
  have hcases : lineFlips b p r c dx dy = [] ∨
      lineFlips b p r c dx dy =
        (collectRun b (opponent p) dx dy 8 (r + dx) (c + dy)).1 := by
    simp only [lineFlips, lineFlipsF]
    split
    · exact Or.inl rfl
    · split
      · exact Or.inr rfl
      · exact Or.inl rfl
  rcases hcases with h | h
  · rw [h]; exact List.nodup_nil
  · rw [h, collectRun_fst_ray]
    apply List.Nodup.map ?_ (List.nodup_range _)
    intro k l hkl
    simp only [Prod.mk.injEq] at hkl
    obtain ⟨e1, e2⟩ := hkl
    have hor : dx ≠ 0 ∨ dy ≠ 0 := by
      rcases hD with ⟨-, -, h3⟩
      tauto
    rcases hor with hdx | hdy
    · have e3 : (k : Int) * dx = (l : Int) * dx := by omega
      have e4 : (k : Int) = (l : Int) := mul_right_cancel₀ hdx e3
      exact_mod_cast e4
    · have e3 : (k : Int) * dy = (l : Int) * dy := by omega
      have e4 : (k : Int) = (l : Int) := mul_right_cancel₀ hdy e3
      exact_mod_cast e4

theorem lineFlips_disjoint {b : Board} {p : Cell} {r c : Int}
    {d1 d2 : Int × Int} (h1 : d1 ∈ directions) (h2 : d2 ∈ directions)
    (hne : d1 ≠ d2) :
    List.Disjoint (lineFlips b p r c d1.1 d1.2)
      (lineFlips b p r c d2.1 d2.2) := by
  intro q hq1 hq2
  rcases lineFlips_ray hq1 with ⟨k, hk, e11, e12⟩
  rcases lineFlips_ray hq2 with ⟨l, hl, e21, e22⟩
  simp only [directions, List.mem_cons, List.not_mem_nil, or_false] at h1 h2
  rcases h1 with rfl | rfl | rfl | rfl | rfl | rfl | rfl | rfl <;>
    rcases h2 with rfl | rfl | rfl | rfl | rfl | rfl | rfl | rfl <;>
      first
        | exact hne rfl
        | (norm_num at e11 e12 e21 e22; omega)

theorem get_flips_nodup (b : Board) (p : Cell) (r c : Int) :
    (get_flips b p r c).Nodup := by
  rw [get_flips_eq_flatten, List.nodup_flatten]
  constructor
  · intro l hl
    rcases List.mem_map.mp hl with ⟨d, hd, rfl⟩
    exact lineFlips_nodup (directions_ok d hd)
  · rw [List.pairwise_map]
    have hnd : directions.Pairwise (· ≠ ·) := by decide
    exact hnd.imp_of_mem (fun ha hb hab => lineFlips_disjoint ha hb hab)

theorem get_flips_congr (b bb : Board) (p : Cell) (r c : Int)
    (h : ∀ x y, inside x y = true → b x y = bb x y) :
    get_flips b p r c = get_flips bb p r c := by
  rw [get_flips_eq_flatten, get_flips_eq_flatten]
  have hmap : (directions.map fun d => lineFlips b p r c d.1 d.2) =
      directions.map fun d => lineFlips bb p r c d.1 d.2 := by
    apply List.map_congr_left
    intro d hd
    have hrun := collectRun_congr b bb (opponent p) d.1 d.2 h 8
      (r + d.1) (c + d.2)
    simp only [lineFlips, lineFlipsF]
    by_cases hx : inside (r + d.1) (c + d.2) = true
    · rw [h _ _ hx, hrun]
      by_cases hg : (!(inside (r + d.1) (c + d.2)) ||
          !(bb (r + d.1) (c + d.2) == opponent p)) = true
      · rw [if_pos hg, if_pos hg]
      · rw [if_neg hg, if_neg hg]
        by_cases hin : inside
            (collectRun bb (opponent p) d.1 d.2 8 (r + d.1) (c + d.2)).2.1
            (collectRun bb (opponent p) d.1 d.2 8 (r + d.1) (c + d.2)).2.2
            = true
        · rw [h _ _ hin]
        · rw [if_neg (by simp [hin]), if_neg (by simp [hin])]
    · rw [if_pos (by simp [hx]), if_pos (by simp [hx])]
  rw [hmap]

/-! ### Pointwise description of applying a move -/

theorem setCell_same (b : Board) (r c : Int) (v : Cell) :
    setCell b r c v r c = v := by
  simp [setCell]

theorem setCell_other (b : Board) (r c : Int) (v : Cell) {rr cc : Int}
    (h : ¬(rr = r ∧ cc = c)) : setCell b r c v rr cc = b rr cc := by
  simp only [setCell]
  rw [if_neg h]

theorem foldl_setCell_apply (p : Cell) :
    ∀ (F : List (Int × Int)) (b0 : Board) (rr cc : Int),
      F.foldl (fun bb q => setCell bb q.1 q.2 p) b0 rr cc =
        if (rr, cc) ∈ F then p else b0 rr cc := by
  intro F
  induction F with
  | nil => intro b0 rr cc; simp
  | cons q F ih =>
    intro b0 rr cc
    rw [List.foldl_cons, ih]
    by_cases hm : (rr, cc) ∈ F
    · rw [if_pos hm, if_pos (List.mem_cons_of_mem q hm)]
    · rw [if_neg hm]
      by_cases he : rr = q.1 ∧ cc = q.2
      · have hq : (rr, cc) = q := Prod.ext he.1 he.2
        rw [if_pos (by rw [hq]; exact List.mem_cons_self q F)]
        simp only [setCell]
        rw [if_pos he]
      · have hne : (rr, cc) ∉ q :: F := by
          intro hmem
          rcases List.mem_cons.mp hmem with h | h
          · exact he ⟨congrArg Prod.fst h, congrArg Prod.snd h⟩
          · exact hm h
        rw [if_neg hne]
        simp only [setCell]
        rw [if_neg he]

theorem applyBoard_apply (b : Board) (p : Cell) (r c : Int)
    (F : List (Int × Int)) (rr cc : Int) :
    applyBoard b p r c F rr cc =
      if (rr, cc) = (r, c) ∨ (rr, cc) ∈ F then p else b rr cc := by
  unfold applyBoard
  rw [foldl_setCell_apply]
  by_cases hm : (rr, cc) ∈ F
  · rw [if_pos hm, if_pos (Or.inr hm)]
  · rw [if_neg hm]
    by_cases he : (rr, cc) = (r, c)
    · rw [if_pos (Or.inl he)]
      simp only [setCell]
      rw [if_pos ⟨congrArg Prod.fst he, congrArg Prod.snd he⟩]
    · rw [if_neg (by tauto)]
      simp only [setCell]
      rw [if_neg (fun hcon => he (Prod.ext hcon.1 hcon.2))]

/-! ### Counting -/

theorem countP_update {α : Type _} :
    ∀ (l : List α), l.Nodup → ∀ (a : α), a ∈ l → ∀ (f g : α → Bool),
      (∀ x ∈ l, x ≠ a → f x = g x) →
      l.countP f + (if g a = true then 1 else 0) =
        l.countP g + (if f a = true then 1 else 0) := by
  intro l
  induction l with
  | nil => intro _ a ha; simp at ha
  | cons x l ih =>
    intro hnd a ha f g hfg
    have hnd1 := (List.nodup_cons.mp hnd).1
    have hnd2 := (List.nodup_cons.mp hnd).2
    rw [List.countP_cons, List.countP_cons]
    rcases List.mem_cons.mp ha with rfl | ha2
    · have hcongr : l.countP f = l.countP g :=
        List.countP_congr (fun y hy => by
          have hya : y ≠ a := fun h => hnd1 (h ▸ hy)
          rw [hfg y (List.mem_cons_of_mem a hy) hya])
      rw [hcongr]
      ring
    · have hxa : x ≠ a := fun hxa => hnd1 (hxa ▸ ha2)
      have hx : f x = g x := hfg x (List.mem_cons_self x l) hxa
      have hih := ih hnd2 a ha2 f g
        (fun y hy hya => hfg y (List.mem_cons_of_mem x hy) hya)
      rw [hx]
      calc l.countP f + (if g x = true then 1 else 0) +
            (if g a = true then 1 else 0)
          = (if g x = true then 1 else 0) +
            (l.countP f + (if g a = true then 1 else 0)) := by ring
        _ = (if g x = true then 1 else 0) +
            (l.countP g + (if f a = true then 1 else 0)) := by rw [hih]
        _ = l.countP g + (if g x = true then 1 else 0) +
            (if f a = true then 1 else 0) := by ring

theorem countCell_eq_countP (b : Board) (v : Cell) :
    countCell b v = allCoords.countP (fun q => b q.1 q.2 == v) := by
  unfold countCell
  rw [List.countP_eq_length_filter]

theorem countCell_setCell (b : Board) (r c : Int) (v : Cell)
    (h : inside r c = true) (u : Cell) :
    countCell (setCell b r c v) u + (if b r c = u then 1 else 0) =
      countCell b u + (if v = u then 1 else 0) := by
  rw [countCell_eq_countP, countCell_eq_countP]
  have hmem : ((r, c) : Int × Int) ∈ allCoords := mem_allCoords.mpr h
  have hkey := countP_update allCoords allCoords_nodup (r, c) hmem
    (fun q => setCell b r c v q.1 q.2 == u) (fun q => b q.1 q.2 == u)
    (fun x _ hxne => by
      have hother : setCell b r c v x.1 x.2 = b x.1 x.2 := by
        apply setCell_other
        intro hco
        exact hxne (Prod.ext hco.1 hco.2)
      simp only [hother])
  simp only [setCell_same, beq_iff_eq] at hkey
  exact hkey

theorem countCell_foldSet (p : Cell) :
    ∀ (F : List (Int × Int)) (b0 : Board), F.Nodup →
      (∀ q ∈ F, inside q.1 q.2 = true ∧ b0 q.1 q.2 = opponent p) →
      countCell (F.foldl (fun bb q => setCell bb q.1 q.2 p) b0) p =
          countCell b0 p + F.length ∧
        countCell b0 (opponent p) =
          countCell (F.foldl (fun bb q => setCell bb q.1 q.2 p) b0)
            (opponent p) + F.length := by
  intro F
  induction F with
  | nil => intro b0 _ _; simp
  | cons q F ih =>
    intro b0 hnd hq
    rw [List.foldl_cons]
    have hqn := (List.nodup_cons.mp hnd).1
    have hnd2 := (List.nodup_cons.mp hnd).2
    have hq0 := hq q (List.mem_cons_self q F)
    have hside : ∀ x ∈ F, inside x.1 x.2 = true ∧
        setCell b0 q.1 q.2 p x.1 x.2 = opponent p := by
      intro x hx
      have hx0 := hq x (List.mem_cons_of_mem q hx)
      refine ⟨hx0.1, ?_⟩
      rw [setCell_other]
      · exact hx0.2
      · intro hco
        exact hqn (Prod.ext hco.1 hco.2 ▸ hx)
    have hIH := ih (setCell b0 q.1 q.2 p) hnd2 hside
    have c1 := countCell_setCell b0 q.1 q.2 p hq0.1 p
    have c2 := countCell_setCell b0 q.1 q.2 p hq0.1 (opponent p)
    rw [hq0.2, if_neg (opponent_ne p), if_pos rfl] at c1
    rw [hq0.2, if_pos rfl, if_neg (fun hpo => opponent_ne p hpo.symm)] at c2
    rw [List.length_cons]
    have h1 := hIH.1
    have h2 := hIH.2
    constructor
    · omega
    · omega

/-! ### Characterization of valid moves -/

theorem mem_get_valid_moves {b : Board} {p : Cell} {q : Int × Int} :
    q ∈ get_valid_moves b p ↔
      inside q.1 q.2 = true ∧ b q.1 q.2 = Cell.empty ∧
        get_flips b p q.1 q.2 ≠ [] := by
  unfold get_valid_moves
  rw [List.mem_filter, mem_allCoords, Bool.and_eq_true]
  constructor
  · rintro ⟨h1, h2, h3⟩
    simp only [beq_iff_eq] at h2
    simp only [Bool.not_eq_true'] at h3
    refine ⟨h1, h2, ?_⟩
    intro hnil
    rw [hnil] at h3
    simp at h3
  · rintro ⟨h1, h2, h3⟩
    refine ⟨h1, by simpa using h2, by simpa using h3⟩

/-! ### Equivalence with the spec-worded flip computation -/

theorem specRun_eq_collectRun (b : Board) (p : Cell) (r c dx dy : Int) :
    specRun b p r c dx dy =
      (collectRun b (opponent p) dx dy 8 (r + dx) (c + dy)).1 := by
  rw [collectRun_fst_takeWhile]
  unfold specRun rayPositions
  congr 1
  apply List.map_congr_left
  intro k _
  simp only [Prod.mk.injEq]
  constructor <;> ring

theorem specLine_eq_lineFlips (b : Board) (p : Cell) (r c dx dy : Int) :
    lineFlips b p r c dx dy = specLine b p r c dx dy := by
  simp only [specLine]
  rw [specRun_eq_collectRun]
  simp only [lineFlips, lineFlipsF]
  have hsnd := collectRun_snd b (opponent p) dx dy 8 (r + dx) (c + dy)
  set res := collectRun b (opponent p) dx dy 8 (r + dx) (c + dy) with hres
  have hsnd1 : res.2.1 = (r + dx) + (res.1.length : Int) * dx := by rw [hsnd]
  have hsnd2 : res.2.2 = (c + dy) + (res.1.length : Int) * dy := by rw [hsnd]
  have e1 : r + ((res.1.length : Int) + 1) * dx = res.2.1 := by
    rw [hsnd1]; ring
  have e2 : c + ((res.1.length : Int) + 1) * dy = res.2.2 := by
    rw [hsnd2]; ring
  by_cases hg : (inside (r + dx) (c + dy) &&
      (b (r + dx) (c + dy) == opponent p)) = true
  · rw [if_neg (show ¬((!(inside (r + dx) (c + dy)) ||
        !(b (r + dx) (c + dy) == opponent p)) = true) by
      simp only [Bool.and_eq_true] at hg
      simp [hg.1, hg.2])]
    refine if_congr ?_ rfl rfl
    constructor
    · intro hC
      simp only [Bool.and_eq_true, beq_iff_eq] at hC
      obtain ⟨⟨hin, hbp⟩, hne⟩ := hC
      refine ⟨by simpa using hne, ?_, ?_⟩
      · rw [e1, e2]; exact hin
      · rw [e1, e2]; exact hbp
    · rintro ⟨hne, hin, hbp⟩
      rw [e1, e2] at hin hbp
      simp only [Bool.and_eq_true, beq_iff_eq]
      exact ⟨⟨hin, hbp⟩, by simpa using hne⟩
  · have hrun : res.1 = [] := by
      rw [hres, show (8 : Nat) = 7 + 1 from rfl, collectRun_succ, if_neg hg]
    rw [if_pos (show (!(inside (r + dx) (c + dy)) ||
        !(b (r + dx) (c + dy) == opponent p)) = true by
      cases ha : inside (r + dx) (c + dy) with
      | false => simp [ha]
      | true =>
        cases hb : (b (r + dx) (c + dy) == opponent p) with
        | false => simp [hb]
        | true => exact absurd (by rw [ha, hb]; rfl) hg)]
    rw [if_neg (fun hC => hC.1 hrun)]

theorem get_flips_eq_flipsSpec (b : Board) (p : Cell) (r c : Int) :
    get_flips b p r c = flipsSpec b p r c := by
  rw [get_flips_eq_flatten]
  unfold flipsSpec
  congr 1
  apply List.map_congr_left
  intro d _
  exact specLine_eq_lineFlips b p r c d.1 d.2

/-! ### Behaviour of the auto-return move -/

theorem make_move_auto_big (b : Board) (p : Cell) (r c : Int) (k : Nat)
    (hne : get_flips b p r c ≠ [])
    (h3 : 3 ≤ (get_flips b p r c).length) :
    ∃ q ∈ get_flips b p r c,
      make_move_auto b p r c k =
        some (setCell (applyBoard b p r c (get_flips b p r c)) q.1 q.2
          (opponent p), get_flips b p r c, some q) := by
  have hE : ¬((get_flips b p r c).isEmpty = true) :=
    fun hEE => hne (List.isEmpty_iff.mp hEE)
  simp only [make_move_auto]
  rw [dif_neg hE, if_pos h3]
  exact ⟨_, List.get_mem _ _ _, rfl⟩

theorem make_move_auto_small (b : Board) (p : Cell) (r c : Int) (k : Nat)
    (hne : get_flips b p r c ≠ [])
    (h3 : ¬ 3 ≤ (get_flips b p r c).length) :
    make_move_auto b p r c k =
      some (applyBoard b p r c (get_flips b p r c),
        get_flips b p r c, none) := by
  have hE : ¬((get_flips b p r c).isEmpty = true) :=
    fun hEE => hne (List.isEmpty_iff.mp hEE)
  simp only [make_move_auto]
  rw [dif_neg hE, if_neg h3]

/-! ### GUI and clock helper lemmas -/

theorem finishOrSwitch_pending (s : GuiState) :
    (finishOrSwitch s).pending_return = s.pending_return := by
  unfold finishOrSwitch
  split_ifs
  · rfl
  · cases switch_player s.board s.current_player <;> rfl

theorem finishOrSwitch_board (s : GuiState) :
    (finishOrSwitch s).board = s.board := by
  unfold finishOrSwitch
  split_ifs
  · rfl
  · cases switch_player s.board s.current_player <;> rfl

theorem decExt_time_left (s : FullState) (p : Cell) :
    (s.decExt p).time_left = s.time_left := by
  unfold FullState.decExt
  split_ifs <;> rfl

theorem decExt_board (s : FullState) (p : Cell) :
    (s.decExt p).board = s.board := by
  unfold FullState.decExt
  split_ifs <;> rfl

theorem decExt_current_player (s : FullState) (p : Cell) :
    (s.decExt p).current_player = s.current_player := by
  unfold FullState.decExt
  split_ifs <;> rfl

theorem decExt_finished (s : FullState) (p : Cell) :
    (s.decExt p).finished = s.finished := by
  unfold FullState.decExt
  split_ifs <;> rfl

theorem decExt_ext_self (s : FullState) (p : Cell) :
    (s.decExt p).ext p = s.ext p - 1 := by
  unfold FullState.decExt FullState.ext
  by_cases hp : p = Cell.X <;> simp [hp]

theorem decExt_ext_opp (s : FullState) (p : Cell) :
    (s.decExt p).ext (opponent p) = s.ext (opponent p) := by
  unfold FullState.decExt FullState.ext opponent
  by_cases hp : p = Cell.X <;> simp [hp]

theorem clockInv_init (b : Board) : ClockInv (initFull b) := by
  unfold ClockInv initFull
  refine ⟨by norm_num, by norm_num, by norm_num, by norm_num,
    by norm_num, by norm_num⟩

theorem use_extension_inv (s : FullState) (h : ClockInv s) :
    ClockInv (use_extension s) := by
  obtain ⟨h1, h2, h3, h4, h5, h6⟩ := h
  unfold use_extension
  split_ifs with hc
  · exact ⟨h1, h2, h3, h4, h5, h6⟩
  · push_neg at hc
    unfold ClockInv FullState.decExt FullState.ext at *
    by_cases hp : s.current_player = Cell.X
    · rw [if_pos hp] at hc ⊢
      refine ⟨?_, ?_, ?_, ?_, ?_, ?_⟩ <;> simp <;> omega
    · rw [if_neg hp] at hc ⊢
      refine ⟨?_, ?_, ?_, ?_, ?_, ?_⟩ <;> simp <;> omega

theorem handle_timeout_inv (s : FullState) (h : ClockInv s) :
    ClockInv (handle_timeout s).1 := by
  obtain ⟨h1, h2, h3, h4, h5, h6⟩ := h
  unfold handle_timeout
  split_ifs with hb
  · unfold ClockInv FullState.decExt FullState.ext at *
    by_cases hp : s.current_player = Cell.X
    · rw [if_pos hp] at hb ⊢
      refine ⟨?_, ?_, ?_, ?_, ?_, ?_⟩ <;> simp <;> omega
    · rw [if_neg hp] at hb ⊢
      refine ⟨?_, ?_, ?_, ?_, ?_, ?_⟩ <;> simp <;> omega
  · cases switch_player s.board s.current_player with
    | toMove next passed => exact ⟨h1, h2, h3, h4, by norm_num, by norm_num⟩
    | finished => exact ⟨h1, h2, h3, h4, h5, h6⟩

theorem clockStep_inv (s : FullState) (op : ClockOp) (h : ClockInv s) :
    ClockInv (clockStep s op) := by
  cases op with
  | extend => exact use_extension_inv s h
  | tick =>
    show ClockInv (tick s)
    unfold tick
    split_ifs with ht
    · exact handle_timeout_inv s h
    · obtain ⟨h1, h2, h3, h4, h5, h6⟩ := h
      exact ⟨h1, h2, h3, h4, by simp; omega, by simp; omega⟩
  | reset next =>
    obtain ⟨h1, h2, h3, h4, h5, h6⟩ := h
    unfold clockStep
    exact ⟨h1, h2, h3, h4, by norm_num, by norm_num⟩

theorem foldl_clockStep_inv (ops : List ClockOp) :
    ∀ s : FullState, ClockInv s → ClockInv (ops.foldl clockStep s) := by
  induction ops with
  | nil => intro s h; exact h
  | cons op ops ih =>
    intro s h
    rw [List.foldl_cons]
    exact ih _ (clockStep_inv s op h)

theorem ext_time_update (a : FullState) (t : Int) (p : Cell) :
    ({ a with time_left := t }).ext p = a.ext p := by
  unfold FullState.ext
  by_cases hp : p = Cell.X <;> simp [hp]

/-! ### Claim theorems -/

/-- C2: for every board, side, and empty target cell, `get_flips` returns
exactly the concatenation, over the 8 compass directions evaluated
independently, of the contiguous run of opponent cells starting adjacent to
the target, each run included only when it is non-empty and terminates
inside the board on a cell owned by the moving side (the spec-worded
computation `flipsSpec`); a direction contributes nothing when it runs
off-board, hits an empty cell first, or hits the moving side's own piece
with no opponent cells collected. -/
theorem C2_computeFlips_spec (b : Board) (p : Cell) (r c : Int)
    (_hempty : b r c = Cell.empty) :
    get_flips b p r c = flipsSpec b p r c :=
  get_flips_eq_flipsSpec b p r c

theorem C2_computeFlips_spec_witness :
    init_board 2 4 = Cell.empty ∧
      get_flips init_board Cell.X 2 4 = flipsSpec init_board Cell.X 2 4 :=
  ⟨by decide, C2_computeFlips_spec init_board Cell.X 2 4 (by decide)⟩

/-- C3: for every board, side among `"X"`/`"O"`, and valid move `(r, c)`
with flip list `F`, applying the move (placement plus flips, before any
return-rule reversion) increases the moving side's piece count by exactly
`1 + |F|` and decreases the opponent's piece count by exactly `|F|`. -/
theorem C3_count_delta (b : Board) (p : Cell) (r c : Int)
    (hp : p = Cell.X ∨ p = Cell.O)
    (hm : ((r, c) : Int × Int) ∈ get_valid_moves b p) :
    countCell (applyBoard b p r c (get_flips b p r c)) p =
        countCell b p + 1 + (get_flips b p r c).length ∧
      countCell (applyBoard b p r c (get_flips b p r c)) (opponent p) +
          (get_flips b p r c).length = countCell b (opponent p) := by
  obtain ⟨hin, hemp, hne⟩ := mem_get_valid_moves.mp hm
  have hep : ¬(Cell.empty = p) := by rcases hp with rfl | rfl <;> decide
  have heo : ¬(Cell.empty = opponent p) := by
    rcases hp with rfl | rfl <;> decide
  have hpo : ¬(p = opponent p) := fun hpo => opponent_ne p hpo.symm
  have hside : ∀ q ∈ get_flips b p r c, inside q.1 q.2 = true ∧
      setCell b r c p q.1 q.2 = opponent p := by
    intro q hq
    have hqf := mem_get_flips_inside hq
    have hqne := mem_get_flips_ne hq
    refine ⟨hqf.1, ?_⟩
    rw [setCell_other]
    · exact hqf.2
    · intro hco
      exact hqne (Prod.ext hco.1 hco.2)
  have hfold := countCell_foldSet p (get_flips b p r c) (setCell b r c p)
    (get_flips_nodup b p r c) hside
  have c1 := countCell_setCell b r c p hin p
  have c2 := countCell_setCell b r c p hin (opponent p)
  rw [hemp, if_neg hep, if_pos rfl] at c1
  rw [hemp, if_neg heo, if_neg hpo] at c2
  have h1 := hfold.1
  have h2 := hfold.2
  unfold applyBoard
  constructor <;> omega

theorem C3_count_delta_witness :
    ((2, 4) : Int × Int) ∈ get_valid_moves init_board Cell.X ∧
      countCell (applyBoard init_board Cell.X 2 4
          (get_flips init_board Cell.X 2 4)) Cell.X =
        countCell init_board Cell.X + 1 +
          (get_flips init_board Cell.X 2 4).length :=
  ⟨by decide,
    (C3_count_delta init_board Cell.X 2 4 (Or.inl rfl) (by decide)).1⟩

/-- C4: whenever, after a completed move by `p`, the side switched to has
no valid move, `switch_player` logs a `PASS` and hands the turn back to
`p`; and when `p` also has no valid move, it goes directly to the finished
outcome with no intermediate turn — a single pass never ends the game by
itself. -/
theorem C4_forced_pass (b : Board) (p : Cell)
    (hopp : get_valid_moves b (opponent p) = []) :
    (get_valid_moves b p ≠ [] →
      switch_player b p = SwitchResult.toMove p true) ∧
    (get_valid_moves b p = [] →
      switch_player b p = SwitchResult.finished) := by
  simp only [switch_player]
  rw [hopp]
  constructor
  · intro hp
    rw [if_neg (by simp), if_pos (by simpa using hp)]
  · intro hp
    rw [if_neg (by simp), if_neg (by simp [hp])]

theorem C4_forced_pass_witness :
    (get_valid_moves bP (opponent Cell.X) = [] ∧
      get_valid_moves bP Cell.X ≠ [] ∧
      switch_player bP Cell.X = SwitchResult.toMove Cell.X true) ∧
    (get_valid_moves bX (opponent Cell.X) = [] ∧
      get_valid_moves bX Cell.X = [] ∧
      switch_player bX Cell.X = SwitchResult.finished) :=
  ⟨⟨by decide, by decide,
      (C4_forced_pass bP Cell.X (by decide)).1 (by decide)⟩,
    ⟨by decide, by decide,
      (C4_forced_pass bX Cell.X (by decide)).2 (by decide)⟩⟩

/-- C7 (counterexample): `get_flips` performs no emptiness check on its
target cell — on `bC7` the occupied cell (0,0) still yields a non-empty
flip list, contradicting "the engine returns an empty result for a
non-empty target". -/
theorem C7_counterexample :
    bC7 0 0 ≠ Cell.empty ∧ get_flips bC7 Cell.X 0 0 = [(0, 1)] := by
  decide

/-- C7 (amended): `get_flips` itself does not check that the target cell is
empty; the empty-target contract is enforced by its caller — every
coordinate of `get_valid_moves` lies inside the board and holds an empty
cell. -/
theorem C7_amended (b : Board) (p : Cell) (q : Int × Int)
    (h : q ∈ get_valid_moves b p) :
    b q.1 q.2 = Cell.empty ∧ inside q.1 q.2 = true :=
  ⟨(mem_get_valid_moves.mp h).2.1, (mem_get_valid_moves.mp h).1⟩

theorem C7_amended_witness :
    ((2, 4) : Int × Int) ∈ get_valid_moves init_board Cell.X ∧
      (init_board 2 4 = Cell.empty ∧ inside 2 4 = true) :=
  ⟨by decide, C7_amended init_board Cell.X (2, 4) (by decide)⟩

/-- C8 (counterexample): on the initial board of this code
(`board[3][3] = board[4][4] = "X"`), Black's (`"X"`) move at (2,3) is
illegal — its flip list is empty and (2,3) is not among `"X"`'s valid
moves (it is a valid move for `"O"` instead). -/
theorem C8_counterexample :
    get_flips init_board Cell.X 2 3 = [] ∧
      ((2, 3) : Int × Int) ∉ get_valid_moves init_board Cell.X ∧
      ((2, 3) : Int × Int) ∈ get_valid_moves init_board Cell.O := by
  decide

/-- C8 (amended): on the initial board, Black's (`"X"`) move at (2,4) is
legal, its flip list is exactly `[(3,4)]`, applying it yields piece counts
`X = 4`, `O = 1`, and no return is triggered since the flip count 1 is
below 3 (the auto-return move reports no returned cell). -/
theorem C8_amended :
    ((2, 4) : Int × Int) ∈ get_valid_moves init_board Cell.X ∧
      get_flips init_board Cell.X 2 4 = [(3, 4)] ∧
      count_pieces (applyBoard init_board Cell.X 2 4
        (get_flips init_board Cell.X 2 4)) = (4, 1) ∧
      ¬(3 ≤ (get_flips init_board Cell.X 2 4).length) ∧
      (make_move_auto init_board Cell.X 2 4 0).map
        (fun t => (t.2.1, t.2.2)) = some ([(3, 4)], none) := by
  decide

/-- C10: the flip computation is total and bounds-safe — its loop gives the
same result for any fuel at least 8 (the source loop always exits the
grid), its result depends only on the in-bounds cells of the board (every
cell read is guarded by `inside`), every coordinate it returns lies inside
the board and differs from the move target, and the coordinates collected
from the 8 directions are pairwise distinct. -/
theorem C10_flip_safety :
    (∀ (fuel : Nat) (b : Board) (p : Cell) (r c : Int), 8 ≤ fuel →
      get_flipsF fuel b p r c = get_flips b p r c) ∧
    (∀ (b bb : Board) (p : Cell) (r c : Int),
      (∀ x y, inside x y = true → b x y = bb x y) →
      get_flips b p r c = get_flips bb p r c) ∧
    (∀ (b : Board) (p : Cell) (r c : Int) (q : Int × Int),
      q ∈ get_flips b p r c → inside q.1 q.2 = true ∧ q ≠ (r, c)) ∧
    (∀ (b : Board) (p : Cell) (r c : Int), (get_flips b p r c).Nodup) := by
  refine ⟨?_, ?_, ?_, ?_⟩
  · intro fuel b p r c hf
    exact get_flipsF_eq_get_flips fuel hf b p r c
  · intro b bb p r c h
    exact get_flips_congr b bb p r c h
  · intro b p r c q hq
    exact ⟨(mem_get_flips_inside hq).1, mem_get_flips_ne hq⟩
  · intro b p r c
    exact get_flips_nodup b p r c

theorem C10_flip_safety_witness :
    get_flipsF 9 init_board Cell.X 2 4 = get_flips init_board Cell.X 2 4 ∧
      get_flips init_board Cell.X 2 4 = get_flips init_board Cell.X 2 4 ∧
      ((3, 4) : Int × Int) ∈ get_flips init_board Cell.X 2 4 ∧
      (inside 3 4 = true ∧ ((3, 4) : Int × Int) ≠ ((2, 4) : Int × Int)) :=
  ⟨C10_flip_safety.1 9 init_board Cell.X 2 4 (by norm_num),
    C10_flip_safety.2.1 init_board init_board Cell.X 2 4
      (fun _ _ _ => rfl),
    by decide,
    C10_flip_safety.2.2.1 init_board Cell.X 2 4 (3, 4) (by decide)⟩

end Reversi

namespace Reversi

/-- C5: along every sequence of clock operations (manual extension
requests, ticks with their timeout handling, and turn-boundary resets)
from the initial session, each side's extension budget starts at 3 and
stays within `[0, 3]` — in particular it never goes negative — and the
remaining time stays within `[0, 120]`; a manual extension request made
when the requesting side's budget is 0 or the remaining time is already at
least 120 is a no-op leaving the whole state unchanged, and an accepted
request decrements exactly the requester's budget by 1 and adds 60 seconds
clamped to 120, touching nothing else. -/
theorem C5_clock_invariant :
    (∀ b : Board, (initFull b).extX = 3 ∧ (initFull b).extO = 3) ∧
    (∀ (b : Board) (ops : List ClockOp),
      ClockInv (ops.foldl clockStep (initFull b))) ∧
    (∀ s : FullState, (s.ext s.current_player = 0 ∨ 120 ≤ s.time_left) →
      use_extension s = s) ∧
    (∀ s : FullState, s.ext s.current_player ≠ 0 → s.time_left < 120 →
      (use_extension s).ext s.current_player = s.ext s.current_player - 1 ∧
      (use_extension s).ext (opponent s.current_player) =
        s.ext (opponent s.current_player) ∧
      (use_extension s).time_left = min (s.time_left + 60) 120 ∧
      (use_extension s).board = s.board ∧
      (use_extension s).current_player = s.current_player ∧
      (use_extension s).finished = s.finished) := by
  refine ⟨?_, ?_, ?_, ?_⟩
  · intro b
    exact ⟨rfl, rfl⟩
  · intro b ops
    exact foldl_clockStep_inv ops (initFull b) (clockInv_init b)
  · intro s h
    unfold use_extension
    rw [if_pos h]
  · intro s h1 h2
    have hcond : ¬(s.ext s.current_player = 0 ∨ 120 ≤ s.time_left) := by
      push_neg
      exact ⟨h1, by omega⟩
    unfold use_extension
    rw [if_neg hcond]
    refine ⟨?_, ?_, ?_, ?_, ?_, ?_⟩
    · rw [ext_time_update, decExt_ext_self]
    · rw [ext_time_update, decExt_ext_opp]
    · show (if 120 < (s.decExt s.current_player).time_left + 60 then (120 : Int)
          else (s.decExt s.current_player).time_left + 60) =
        min (s.time_left + 60) 120
      rw [decExt_time_left]
      split_ifs with hh <;> omega
    · show (s.decExt s.current_player).board = s.board
      exact decExt_board s s.current_player
    · show (s.decExt s.current_player).current_player = s.current_player
      exact decExt_current_player s s.current_player
    · show (s.decExt s.current_player).finished = s.finished
      exact decExt_finished s s.current_player

theorem C5_clock_invariant_witness :
    ((initFull bP).extX = 3 ∧ (initFull bP).extO = 3) ∧
      ClockInv ([ClockOp.extend, ClockOp.tick,
        ClockOp.reset Cell.O].foldl clockStep (initFull bP)) ∧
      use_extension s0W = s0W ∧
      ((use_extension (initFull bP)).ext (initFull bP).current_player =
          (initFull bP).ext (initFull bP).current_player - 1 ∧
        (use_extension (initFull bP)).time_left =
          min ((initFull bP).time_left + 60) 120) :=
  ⟨C5_clock_invariant.1 bP,
    C5_clock_invariant.2.1 bP
      [ClockOp.extend, ClockOp.tick, ClockOp.reset Cell.O],
    C5_clock_invariant.2.2.1 s0W (Or.inl (by decide)),
    ⟨(C5_clock_invariant.2.2.2 (initFull bP) (by decide) (by decide)).1,
      (C5_clock_invariant.2.2.2 (initFull bP) (by decide)
        (by decide)).2.2.1⟩⟩

/-- C6: when the countdown reaches 0, `handle_timeout` either — if the
active side still has extension budget — automatically consumes exactly
one extension and resets the countdown to 60 with no pass and no waiting
for input, or — if the budget is exhausted — emits a `PASS` and forfeits
the turn unconditionally through the same `switch_player` pass handling
used for a legal-move-less forced pass, regardless of whether the expiring
side has legal moves. -/
theorem C6_timeout (s : FullState) :
    (0 < s.ext s.current_player →
      handle_timeout s =
        ({ s.decExt s.current_player with time_left := 60 }, false)) ∧
    (s.ext s.current_player ≤ 0 →
      (handle_timeout s).2 = true ∧
      (∀ next passed,
        switch_player s.board s.current_player =
            SwitchResult.toMove next passed →
        (handle_timeout s).1 =
          { s with current_player := next, time_left := 60 }) ∧
      (switch_player s.board s.current_player = SwitchResult.finished →
        (handle_timeout s).1 = { s with finished := true })) := by
  constructor
  · intro h
    unfold handle_timeout
    rw [if_pos h]
  · intro h
    unfold handle_timeout
    rw [if_neg (by omega)]
    refine ⟨?_, ?_, ?_⟩
    · cases hsw : switch_player s.board s.current_player <;> rfl
    · intro next passed hsw
      rw [hsw]
    · intro hsw
      rw [hsw]

theorem C6_timeout_witness :
    handle_timeout s1W =
        ({ s1W.decExt s1W.current_player with time_left := 60 }, false) ∧
      (handle_timeout s0W).2 = true ∧
      (handle_timeout s0W).1 =
        { s0W with current_player := Cell.X, time_left := 60 } ∧
      get_valid_moves s0W.board s0W.current_player ≠ [] :=
  ⟨(C6_timeout s1W).1 (by decide),
    ((C6_timeout s0W).2 (by decide)).1,
    ((C6_timeout s0W).2 (by decide)).2.1 Cell.X true (by decide),
    by decide⟩

/-- C1: the return rule.  Auto mode (`test.py`): for every valid move whose
flip list `F` has at least 3 entries, `make_move_auto` immediately reverts
exactly one coordinate drawn from `F` (the injected random pick) to the
opponent's colour, leaving the placed piece and every other flipped cell
with the mover's colour; for a valid move with fewer than 3 flips it
reverts nothing and reports no returned cell.  Manual mode (`test2.py`):
a qualifying click stores the full flip list as the pending return without
reverting anything, a non-qualifying click leaves no pending state, and
the follow-up selection is restricted to the stored flip list — a click
outside it is a no-op, while a click on it reverts exactly that one cell
and clears the pending state. -/
theorem C1_return_rule :
    (∀ (b : Board) (p : Cell) (r c : Int) (k : Nat),
      ((r, c) : Int × Int) ∈ get_valid_moves b p →
      3 ≤ (get_flips b p r c).length →
      ∃ bres q,
        make_move_auto b p r c k =
          some (bres, get_flips b p r c, some q) ∧
        q ∈ get_flips b p r c ∧
        bres q.1 q.2 = opponent p ∧
        bres r c = p ∧
        (∀ qq ∈ get_flips b p r c, qq ≠ q → bres qq.1 qq.2 = p)) ∧
    (∀ (b : Board) (p : Cell) (r c : Int) (k : Nat),
      ((r, c) : Int × Int) ∈ get_valid_moves b p →
      (get_flips b p r c).length < 3 →
      make_move_auto b p r c k =
        some (applyBoard b p r c (get_flips b p r c),
          get_flips b p r c, none) ∧
      (∀ qq ∈ get_flips b p r c,
        applyBoard b p r c (get_flips b p r c) qq.1 qq.2 = p)) ∧
    (∀ (s : GuiState) (row col : Int),
      s.finished = false → s.pending_return = none →
      ((row, col) : Int × Int) ∈ get_valid_moves s.board s.current_player →
      (3 ≤ (get_flips s.board s.current_player row col).length →
        (handle_click s row col).pending_return =
            some (get_flips s.board s.current_player row col) ∧
          (handle_click s row col).board =
            applyBoard s.board s.current_player row col
              (get_flips s.board s.current_player row col)) ∧
      ((get_flips s.board s.current_player row col).length < 3 →
        (handle_click s row col).pending_return = none)) ∧
    (∀ (s : GuiState) (pend : List (Int × Int)) (row col : Int),
      s.pending_return = some pend →
      (((row, col) : Int × Int) ∉ pend →
        handle_return_click s row col = s) ∧
      (((row, col) : Int × Int) ∈ pend →
        (handle_return_click s row col).pending_return = none ∧
        (handle_return_click s row col).board row col =
          opponent s.current_player ∧
        (∀ qq ∈ pend, ¬(qq.1 = row ∧ qq.2 = col) →
          (handle_return_click s row col).board qq.1 qq.2 =
            s.board qq.1 qq.2))) := by
  refine ⟨?_, ?_, ?_, ?_⟩
  · intro b p r c k hm h3
    obtain ⟨-, -, hne⟩ := mem_get_valid_moves.mp hm
    obtain ⟨q, hqmem, hauto⟩ := make_move_auto_big b p r c k hne h3
    refine ⟨_, q, hauto, hqmem, setCell_same _ _ _ _, ?_, ?_⟩
    · rw [setCell_other]
      · rw [applyBoard_apply, if_pos (Or.inl rfl)]
      · intro hco
        exact mem_get_flips_ne hqmem (Prod.ext hco.1.symm hco.2.symm)
    · intro qq hqq hqqne
      rw [setCell_other]
      · rw [applyBoard_apply, if_pos (Or.inr hqq)]
      · intro hco
        exact hqqne (Prod.ext hco.1 hco.2)
  · intro b p r c k hm h3
    obtain ⟨-, -, hne⟩ := mem_get_valid_moves.mp hm
    refine ⟨make_move_auto_small b p r c k hne (by omega), ?_⟩
    intro qq hqq
    rw [applyBoard_apply, if_pos (Or.inr hqq)]
  · intro s row col hf hp hm
    have hfacts := mem_get_valid_moves.mp hm
    unfold handle_click
    rw [if_neg (by simp [hf]), if_neg (by simp [hp]),
      if_neg (by simp [hfacts.1]), if_neg (fun hc => hc hm)]
    constructor
    · intro h3
      rw [if_pos h3]
      exact ⟨rfl, rfl⟩
    · intro h3
      rw [if_neg (by omega)]
      rw [finishOrSwitch_pending]
      exact hp
  · intro s pend row col hpend
    constructor
    · intro hnot
      simp only [handle_return_click, hpend]
      rw [if_pos hnot]
    · intro hmem
      simp only [handle_return_click, hpend]
      rw [if_neg (fun hc => hc hmem)]
      refine ⟨?_, ?_, ?_⟩
      · rw [finishOrSwitch_pending]
      · rw [finishOrSwitch_board]
        exact setCell_same _ _ _ _
      · intro qq hqq hqqne
        rw [finishOrSwitch_board]
        exact setCell_other _ _ _ _ hqqne

theorem C1_return_rule_witness :
    (∃ bres q,
      make_move_auto bW Cell.X 0 0 1 =
        some (bres, get_flips bW Cell.X 0 0, some q) ∧
      q ∈ get_flips bW Cell.X 0 0 ∧
      bres q.1 q.2 = opponent Cell.X ∧
      bres 0 0 = Cell.X ∧
      (∀ qq ∈ get_flips bW Cell.X 0 0, qq ≠ q →
        bres qq.1 qq.2 = Cell.X)) ∧
    handle_return_click gW 0 5 = gW ∧
    (handle_return_click gW 0 2).pending_return = none :=
  ⟨C1_return_rule.1 bW Cell.X 0 0 1 (by decide) (by decide),
    (C1_return_rule.2.2.2 gW [(0, 1), (0, 2), (0, 3)] 0 5 rfl).1
      (by decide),
    ((C1_return_rule.2.2.2 gW [(0, 1), (0, 2), (0, 3)] 0 2 rfl).2
      (by decide)).1⟩

/-- C9: frame property of `make_move` (auto variant, on the whole session
state): for every legal move, every board cell outside the placed
coordinate and the flip list — the auto-reverted cell, when any, being
itself a member of the flip list — keeps exactly its previous contents,
and the operation leaves `current_player`, both extension budgets, the
timer and the finished flag unchanged. -/
theorem C9_frame (s : FullState) (r c : Int) (k : Nat)
    (hne : get_flips s.board s.current_player r c ≠ []) :
    ((make_move_state s r c k).1.current_player = s.current_player ∧
      (make_move_state s r c k).1.extX = s.extX ∧
      (make_move_state s r c k).1.extO = s.extO ∧
      (make_move_state s r c k).1.time_left = s.time_left ∧
      (make_move_state s r c k).1.finished = s.finished) ∧
    (∀ rr cc : Int, ¬(((rr, cc) : Int × Int) = (r, c) ∨
        ((rr, cc) : Int × Int) ∈ get_flips s.board s.current_player r c) →
      (make_move_state s r c k).1.board rr cc = s.board rr cc) := by
  by_cases h3 : 3 ≤ (get_flips s.board s.current_player r c).length
  · obtain ⟨q, hqmem, hauto⟩ :=
      make_move_auto_big s.board s.current_player r c k hne h3
    simp only [make_move_state, hauto]
    refine ⟨⟨trivial, trivial, trivial, trivial, trivial⟩, ?_⟩
    intro rr cc hout
    show setCell (applyBoard s.board s.current_player r c
        (get_flips s.board s.current_player r c)) q.1 q.2
        (opponent s.current_player) rr cc = s.board rr cc
    rw [setCell_other]
    · rw [applyBoard_apply, if_neg hout]
    · intro hco
      refine hout (Or.inr ?_)
      have hq : ((rr, cc) : Int × Int) = q := Prod.ext hco.1 hco.2
      rw [hq]
      exact hqmem
  · have hauto := make_move_auto_small s.board s.current_player r c k hne h3
    simp only [make_move_state, hauto]
    refine ⟨⟨trivial, trivial, trivial, trivial, trivial⟩, ?_⟩
    intro rr cc hout
    show applyBoard s.board s.current_player r c
        (get_flips s.board s.current_player r c) rr cc = s.board rr cc
    rw [applyBoard_apply, if_neg hout]

theorem C9_frame_witness :
    (make_move_state (initFull bP) 0 2 0).1.current_player =
        (initFull bP).current_player ∧
      (make_move_state (initFull bP) 0 2 0).1.extX = (initFull bP).extX ∧
      (make_move_state (initFull bP) 0 2 0).1.board 5 5 =
        (initFull bP).board 5 5 :=
  ⟨((C9_frame (initFull bP) 0 2 0 (by decide)).1).1,
    ((C9_frame (initFull bP) 0 2 0 (by decide)).1).2.1,
    (C9_frame (initFull bP) 0 2 0 (by decide)).2 5 5 (by decide)⟩

end Reversi
